import Mathlib

/-!
Verification of the slime-mold simulation (`main.py`).

The source is a Python/CuPy program.  We give a shallow embedding of the
class `SlimeWorld`: floating-point values are idealised as real numbers,
the vectorised per-agent array operations become functions `Fin n → _`,
and the trail field `cells` (a `W × H × 3` array) becomes a function
`ℤ → ℤ → Fin 3 → ℝ` (only indices in `[0, W) × [0, H)` are ever written
or read by the simulation).  The random stream `cp.random.random` is an
explicit input `u : Fin n → ℝ` with `u i ∈ [0, 1)`.

Source constants: `WIDTH = HEIGHT = 1400`, `num_slimes = 150000`,
`trail_reduction_factor = 0.99`, `sense_dist = 7`,
`sense_angles = [deg2rad (-30), 0, deg2rad 30]`,
`turn_angle = turn_angle_random = deg2rad 10`.  Grid size and agent count
are kept as parameters of the embedding (a `SlimeConfig`), the numeric
constants are embedded literally.
-/

namespace SlimeSim

open Real

/-- Grid dimensions and agent count (`SlimeWorld.WIDTH`, `HEIGHT`,
`num_slimes` in the source; kept as parameters so that statements can
quantify over them). -/
structure SlimeConfig where
  W : ℕ
  H : ℕ
  n : ℕ

/-- The mutable class state of `SlimeWorld`: `slime_pos`, `slime_angle`,
`slime_color` and the trail field `cells`. -/
structure SlimeState (cfg : SlimeConfig) where
  pos : Fin cfg.n → ℝ × ℝ
  angle : Fin cfg.n → ℝ
  color : Fin cfg.n → Fin 3 → ℝ
  cells : ℤ → ℤ → Fin 3 → ℝ

/-- `np.deg2rad`: degrees to radians. -/
noncomputable def deg2rad (d : ℝ) : ℝ := d * (π / 180)

/-- `SlimeWorld.sense_dist`. -/
def sense_dist : ℝ := 7

/-- `SlimeWorld.turn_angle` (10 degrees). -/
noncomputable def turn_angle : ℝ := deg2rad 10

/-- `SlimeWorld.turn_angle_random` (10 degrees). -/
noncomputable def turn_angle_random : ℝ := deg2rad 10

/-- `SlimeWorld.trail_reduction_factor`. -/
def trail_reduction_factor : ℝ := 0.99

/-- `SlimeWorld.sense_angles = [np.deg2rad(-30), 0, np.deg2rad(30)]`,
indexed left / straight / right. -/
noncomputable def sense_angles (j : Fin 3) : ℝ :=
  if j = 0 then deg2rad (-30) else if j = 1 then 0 else deg2rad 30

/-- `cp.ndarray.astype(int)` on a float: truncation toward zero. -/
noncomputable def truncZ (x : ℝ) : ℤ := if 0 ≤ x then ⌊x⌋ else ⌈x⌉

/-- First component of `SlimeWorld.clip`:
`cp.clip(pos[:, 0], 0, WIDTH - 1)`. -/
noncomputable def clipX (cfg : SlimeConfig) (x : ℝ) : ℝ :=
  min (max x 0) ((cfg.W : ℝ) - 1)

/-- Second component of `SlimeWorld.clip`:
`cp.clip(pos[:, 1], 0, HEIGHT - 1)`. -/
noncomputable def clipY (cfg : SlimeConfig) (y : ℝ) : ℝ :=
  min (max y 0) ((cfg.H : ℝ) - 1)

section Ops

variable {cfg : SlimeConfig}

/-! ### sense_at_angle -/

/-- The clipped x-coordinate of the sensing position of agent `i` for
angle offset `a`: `clip(slime_pos + [sin, cos](slime_angle + a) * sense_dist)`,
first axis. -/
noncomputable def sensePosX (s : SlimeState cfg) (a : ℝ) (i : Fin cfg.n) : ℝ :=
  clipX cfg ((s.pos i).1 + Real.sin (s.angle i + a) * sense_dist)

/-- The clipped y-coordinate of the sensing position (second axis,
using `cos`). -/
noncomputable def sensePosY (s : SlimeState cfg) (a : ℝ) (i : Fin cfg.n) : ℝ :=
  clipY cfg ((s.pos i).2 + Real.cos (s.angle i + a) * sense_dist)

/-- `int_sense_pos = sense_pos.astype(int)`: the sampled grid cell. -/
noncomputable def senseCell (s : SlimeState cfg) (a : ℝ) (i : Fin cfg.n) : ℤ × ℤ :=
  (truncZ (sensePosX s a i), truncZ (sensePosY s a i))

/-- `SlimeWorld.sense_at_angle`: the sensing score of agent `i` at angle
offset `a`, the negative L1 distance between the sampled cell's channel
vector and the agent's own color. -/
noncomputable def sense_at_angle (s : SlimeState cfg) (a : ℝ) (i : Fin cfg.n) : ℝ :=
  -(∑ c : Fin 3, |s.cells (senseCell s a i).1 (senseCell s a i).2 c - s.color i c|)

/-! ### sense_and_turn -/

/-- `cp.argmax` on three values: the first index attaining the maximum
(index `0` if `a` is maximal, else index `1` if `b` is maximal, else `2`). -/
noncomputable def argmax3 (a b c : ℝ) : Fin 3 :=
  if b ≤ a ∧ c ≤ a then 0 else if a < b ∧ c ≤ b then 1 else 2

/-- `sensors_argmax` for agent `i`: index of the winning sensing
direction among (left, straight, right). -/
noncomputable def sensorsArgmax (s : SlimeState cfg) (i : Fin cfg.n) : Fin 3 :=
  argmax3 (sense_at_angle s (sense_angles 0) i)
    (sense_at_angle s (sense_angles 1) i)
    (sense_at_angle s (sense_angles 2) i)

/-- `SlimeWorld.sense_and_turn`.  The source performs, on the whole
population at once: `slime_angle[argmax == 1] -= turn_angle`,
`slime_angle[argmax == 2] += turn_angle`, `slime_angle += random_angle`
with `random_angle = random(n) * 2 * turn_angle_random - turn_angle_random`.
`u` is the random stream (`cp.random.random`, values in `[0, 1)`). -/
noncomputable def sense_and_turn (u : Fin cfg.n → ℝ) (s : SlimeState cfg) :
    SlimeState cfg :=
  { s with
    angle := fun i =>
      s.angle i +
        (if sensorsArgmax s i = 1 then -turn_angle
          else if sensorsArgmax s i = 2 then turn_angle else 0) +
        (u i * 2 * turn_angle_random - turn_angle_random) }

/-! ### move_slimes -/

/-- `slime_dir = [sin(slime_angle), cos(slime_angle)]`. -/
noncomputable def moveDir (s : SlimeState cfg) (i : Fin cfg.n) : ℝ × ℝ :=
  (Real.sin (s.angle i), Real.cos (s.angle i))

/-- `slime_pos += slime_dir`: the pre-clip position after the move. -/
noncomputable def movedPos (s : SlimeState cfg) (i : Fin cfg.n) : ℝ × ℝ :=
  ((s.pos i).1 + (moveDir s i).1, (s.pos i).2 + (moveDir s i).2)

/-- `xoob`: the moved position is out of bounds on the x-axis. -/
def outX (cfg : SlimeConfig) (s : SlimeState cfg) (i : Fin cfg.n) : Prop :=
  (movedPos s i).1 < 0 ∨ (movedPos s i).1 > (cfg.W : ℝ) - 1

/-- `yoob`: the moved position is out of bounds on the y-axis. -/
def outY (cfg : SlimeConfig) (s : SlimeState cfg) (i : Fin cfg.n) : Prop :=
  (movedPos s i).2 < 0 ∨ (movedPos s i).2 > (cfg.H : ℝ) - 1

open Classical in
/-- The movement direction after the per-axis sign flips
`slime_dir[xoob, 0] *= -1`, `slime_dir[yoob, 1] *= -1` (flipping only the
rows selected by the boolean masks is the same as this per-agent
conditional flip). -/
noncomputable def bouncedDir (s : SlimeState cfg) (i : Fin cfg.n) : ℝ × ℝ :=
  ((if outX cfg s i then -(moveDir s i).1 else (moveDir s i).1),
   (if outY cfg s i then -(moveDir s i).2 else (moveDir s i).2))

/-- `cp.arctan2 y x`: the angle of the point `(x, y)`, in `(-π, π]`. -/
noncomputable def atan2 (y x : ℝ) : ℝ := Complex.arg (x + y * Complex.I)

open Classical in
/-- `SlimeWorld.move_slimes`: add the direction vector to every
position; if any agent is out of bounds on either axis, flip the
direction signs of the out-of-bounds agents per axis, reassign every
agent's angle from its (possibly flipped) direction via `arctan2`, and
clip every position into bounds.  If no agent is out of bounds, the
angles are untouched and no clipping happens. -/
noncomputable def move_slimes (s : SlimeState cfg) : SlimeState cfg :=
  if _h : ∃ i, outX cfg s i ∨ outY cfg s i then
    { s with
      pos := fun i => (clipX cfg (movedPos s i).1, clipY cfg (movedPos s i).2),
      angle := fun i => atan2 (bouncedDir s i).1 (bouncedDir s i).2 }
  else { s with pos := movedPos s }

/-! ### leave_slime_trail -/

/-- `int_pos = slime_pos.astype(int)`: the grid cell an agent occupies. -/
noncomputable def intPos (s : SlimeState cfg) (i : Fin cfg.n) : ℤ × ℤ :=
  (truncZ (s.pos i).1, truncZ (s.pos i).2)

/-- Overwrite one field cell with a color vector. -/
noncomputable def writeCell (f : ℤ → ℤ → Fin 3 → ℝ) (p : ℤ × ℤ)
    (col : Fin 3 → ℝ) : ℤ → ℤ → Fin 3 → ℝ :=
  fun x y c => if x = p.1 ∧ y = p.2 then col c else f x y c

/-- The field after the writes of agents `0, …, m-1` in index order.
`cells[int_pos[:, 0], int_pos[:, 1]] = slime_color` scatters each
agent's color to its cell; with duplicate cells the later agent in the
fixed iteration order wins. -/
noncomputable def depositUpTo (s : SlimeState cfg) : ℕ → (ℤ → ℤ → Fin 3 → ℝ)
  | 0 => s.cells
  | m + 1 =>
    if h : m < cfg.n then
      writeCell (depositUpTo s m) (intPos s ⟨m, h⟩) (s.color ⟨m, h⟩)
    else depositUpTo s m

/-- `SlimeWorld.leave_slime_trail`. -/
noncomputable def leave_slime_trail (s : SlimeState cfg) : SlimeState cfg :=
  { s with cells := depositUpTo s cfg.n }

end Ops

/-! ### The diffusion kernel (`gkern(21, 20)`) -/

/-- The standard normal cumulative distribution function
(`scipy.stats.norm.cdf`). -/
noncomputable def normCdf (t : ℝ) : ℝ :=
  (∫ x in Set.Iic t, Real.exp (-x ^ 2 / 2)) / Real.sqrt (2 * π)

/-- `np.linspace(-20, 20, 22)`: the sample point of index `i`
(`gkern` is called with its default arguments `kernlen = 21`, `nsig = 20`). -/
noncomputable def linspacePt (i : ℕ) : ℝ := -20 + i * (40 / 21)

/-- `kern1d = np.diff(st.norm.cdf(x))`: the discrete 1D Gaussian profile. -/
noncomputable def kern1d (i : ℕ) : ℝ := normCdf (linspacePt (i + 1)) - normCdf (linspacePt i)

/-- `kern2d.sum()` where `kern2d = np.outer(kern1d, kern1d)`. -/
noncomputable def kern2dSum : ℝ :=
  ∑ i ∈ Finset.range 21, ∑ j ∈ Finset.range 21, kern1d i * kern1d j

/-- `SlimeWorld.trail_kernel = gkern() / gkern().sum()` entrywise:
the normalized 2D Gaussian kernel. -/
noncomputable def trailKernel (i j : ℕ) : ℝ := kern1d i * kern1d j / kern2dSum

/-- The `reflect` boundary mode of `cupyx.scipy.ndimage.convolve`
(`d c b a | a b c d | d c b a`): fold an arbitrary index into `[0, m)`. -/
def reflectIdx (m : ℕ) (z : ℤ) : ℤ :=
  if z % (2 * (m : ℤ)) < (m : ℤ) then z % (2 * (m : ℤ))
  else 2 * (m : ℤ) - 1 - z % (2 * (m : ℤ))

/-- `convolve(cells, trail_kernel)` with the default `reflect` boundary
mode.  The kernel has shape `21 × 21 × 1`, so channels do not mix; the
kernel center is at offset `(10, 10)` and
`out[x, y, c] = Σ_{i,j} K[i, j] * in[x + 10 - i, y + 10 - j, c]`. -/
noncomputable def convolveCells (cfg : SlimeConfig) (f : ℤ → ℤ → Fin 3 → ℝ) :
    ℤ → ℤ → Fin 3 → ℝ :=
  fun x y c =>
    ∑ i ∈ Finset.range 21, ∑ j ∈ Finset.range 21,
      trailKernel i j *
        f (reflectIdx cfg.W (x + 10 - i)) (reflectIdx cfg.H (y + 10 - j)) c

/-- `SlimeWorld.diffuse_slime_trail`: multiply the field by the
reduction factor, then convolve with the trail kernel. -/
noncomputable def diffuse_slime_trail {cfg : SlimeConfig} (s : SlimeState cfg) :
    SlimeState cfg :=
  { s with
    cells := convolveCells cfg (fun x y c => trail_reduction_factor * s.cells x y c) }

/-- `k` successive applications of `diffuse_slime_trail` (the per-tick
field update in isolation, i.e. with no deposits). -/
noncomputable def diffuseIter (cfg : SlimeConfig) : ℕ → SlimeState cfg → SlimeState cfg
  | 0, s => s
  | k + 1, s => diffuse_slime_trail (diffuseIter cfg k s)

/-! ### tick -/

/-- `SlimeWorld.tick`: `move_slimes(); leave_slime_trail();
diffuse_slime_trail(); sense_and_turn()`, in that order.  `u` is the
random stream consumed by `sense_and_turn`. -/
noncomputable def tick {cfg : SlimeConfig} (u : Fin cfg.n → ℝ) (s : SlimeState cfg) :
    SlimeState cfg :=
  sense_and_turn u (diffuse_slime_trail (leave_slime_trail (move_slimes s)))

/-! ### Export and initialization -/

/-- `astype(np.uint8)` on one float channel value: C-style cast, i.e.
truncation toward zero followed by wraparound modulo 256 (no clamping). -/
noncomputable def castUInt8 (v : ℝ) : ℤ := truncZ v % 256

/-- `array_buffer = cp.asnumpy(SlimeWorld.cells).astype(np.uint8)`:
the exported 8-bit color buffer (a copy of the field, cast per channel). -/
noncomputable def exportColorBuffer (f : ℤ → ℤ → Fin 3 → ℝ) : ℤ → ℤ → Fin 3 → ℤ :=
  fun x y c => castUInt8 (f x y c)

/-- Modelled from the spec: the export the specification describes,
which clamps each channel to `[0, 255]` before the cast to 8 bits. -/
noncomputable def exportClampSpec (v : ℝ) : ℤ := min 255 (max 0 (truncZ v))

/-- A configuration as the spec's `initialize(config)` receives it. -/
structure InitConfig where
  width : ℤ
  height : ℤ
  numAgents : ℤ
  kernelRadius : ℤ
  decay : ℝ

/-- The validity conditions the spec lists for a configuration. -/
def validConfig (c : InitConfig) : Prop :=
  0 < c.width ∧ 0 < c.height ∧ 0 < c.numAgents ∧ 0 < c.kernelRadius ∧
    0 < c.decay ∧ c.decay < 1

/-- `SlimeWorld.initialize` — its body in the source is `pass`: it
performs no validation and never fails, whatever the configuration. -/
def worldInit (_c : InitConfig) : Except String Unit := Except.ok ()

/-- Modelled from the spec: the round-to-nearest sampling cell the
specification describes for `sense_at_angle` (the source truncates
instead). -/
noncomputable def senseCellRounded {cfg : SlimeConfig} (s : SlimeState cfg)
    (a : ℝ) (i : Fin cfg.n) : ℤ × ℤ :=
  (round (sensePosX s a i), round (sensePosY s a i))

/-!
## Basic facts about the embedded operations
-/

lemma truncZ_of_nonneg {x : ℝ} (h : 0 ≤ x) : truncZ x = ⌊x⌋ := if_pos h

lemma turn_angle_pos : 0 < turn_angle := by
  unfold turn_angle deg2rad; positivity

lemma turn_angle_random_pos : 0 < turn_angle_random := by
  unfold turn_angle_random deg2rad; positivity

lemma sense_and_turn_angle {cfg : SlimeConfig} (u : Fin cfg.n → ℝ)
    (s : SlimeState cfg) (i : Fin cfg.n) :
    (sense_and_turn u s).angle i =
      s.angle i +
        (if sensorsArgmax s i = 1 then -turn_angle
          else if sensorsArgmax s i = 2 then turn_angle else 0) +
        (u i * 2 * turn_angle_random - turn_angle_random) := rfl

lemma sense_angles_0 : sense_angles 0 = deg2rad (-30) := if_pos rfl

lemma sense_angles_1 : sense_angles 1 = 0 := by
  unfold sense_angles
  rw [if_neg (by decide), if_pos rfl]

lemma sense_angles_2 : sense_angles 2 = deg2rad 30 := by
  unfold sense_angles
  rw [if_neg (by decide), if_neg (by decide)]

lemma abs_zero_sub_of_nonneg {x : ℝ} (h : 0 ≤ x) : |0 - x| = x := by
  rw [abs_sub_comm, sub_zero, abs_of_nonneg h]

lemma clipX_mem {cfg : SlimeConfig} (hW : 1 ≤ cfg.W) (x : ℝ) :
    0 ≤ clipX cfg x ∧ clipX cfg x ≤ (cfg.W : ℝ) - 1 := by
  have h1 : (1 : ℝ) ≤ (cfg.W : ℝ) := by exact_mod_cast hW
  unfold clipX
  constructor
  · exact le_min (le_max_right x 0) (by linarith)
  · exact min_le_right _ _

lemma clipY_mem {cfg : SlimeConfig} (hH : 1 ≤ cfg.H) (y : ℝ) :
    0 ≤ clipY cfg y ∧ clipY cfg y ≤ (cfg.H : ℝ) - 1 := by
  have h1 : (1 : ℝ) ≤ (cfg.H : ℝ) := by exact_mod_cast hH
  unfold clipY
  constructor
  · exact le_min (le_max_right y 0) (by linarith)
  · exact min_le_right _ _

/-!
## Shared concrete instances used by witnesses and counterexamples
-/

/-- A single-agent instance of the source's grid dimensions. -/
abbrev cfgZ : SlimeConfig := ⟨1400, 1400, 1⟩

/-- A two-agent instance of the source's grid dimensions. -/
abbrev cfg2 : SlimeConfig := ⟨1400, 1400, 2⟩

/-- A one-agent world with an all-zero field and all-zero colors. -/
noncomputable def sZ : SlimeState cfgZ :=
  { pos := fun _ => (700, 700)
    angle := fun _ => 0
    color := fun _ _ => 0
    cells := fun _ _ _ => 0 }

/-- A fixed random stream: `cp.random.random` returning `1/2` (so the
turn jitter is exactly `0`). -/
noncomputable def uZ : Fin cfgZ.n → ℝ := fun _ => 1 / 2

/-!
## C4 — tick ordering
-/

/-- C4: one call to `tick` is exactly the sequential composition
`move_slimes`, then `leave_slime_trail`, then `diffuse_slime_trail`,
then `sense_and_turn`, in that fixed order. -/
theorem c4_tick_order {cfg : SlimeConfig} (u : Fin cfg.n → ℝ) (s : SlimeState cfg) :
    tick u s = sense_and_turn u (diffuse_slime_trail (leave_slime_trail (move_slimes s))) :=
  rfl

/-!
## C9 — configuration validation (the source's init is a no-op)
-/

/-- C9 (amended): the source's init function has body `pass`; it accepts
every configuration, performing no validation and never failing. -/
theorem c9_no_validation : ∀ c : InitConfig, worldInit c = Except.ok () :=
  fun _ => rfl

/-- An invalid configuration: non-positive width. -/
noncomputable def badInitConfig : InitConfig :=
  { width := 0, height := 1400, numAgents := 150000, kernelRadius := 10, decay := 0.99 }

/-- C9 counterexample: `badInitConfig` violates the validity conditions
(width is not positive), yet init succeeds on it with no error. -/
theorem c9_counterexample :
    ¬ validConfig badInitConfig ∧ worldInit badInitConfig = Except.ok () := by
  constructor
  · intro h
    have := h.1
    simp [badInitConfig] at this
  · rfl

/-!
## C8 — color-buffer export
-/

/-- C8 (amended): the exported buffer casts each channel by truncation
toward zero followed by reduction modulo 256 — values already in
`[0, 255]` are preserved, every exported value lies in `[0, 256)`, but
out-of-range field values wrap instead of clamping. -/
theorem c8_export_cast (f : ℤ → ℤ → Fin 3 → ℝ) (x y : ℤ) (c : Fin 3)
    (h0 : 0 ≤ f x y c) (h1 : f x y c < 256) :
    exportColorBuffer f x y c = truncZ (f x y c) ∧
      0 ≤ exportColorBuffer f x y c ∧ exportColorBuffer f x y c < 256 := by
  unfold exportColorBuffer castUInt8
  refine ⟨?_, Int.emod_nonneg _ (by norm_num), Int.emod_lt_of_pos _ (by norm_num)⟩
  rw [truncZ_of_nonneg h0]
  exact Int.emod_eq_of_lt (Int.floor_nonneg.mpr h0)
    (Int.floor_lt.mpr (by exact_mod_cast h1))

/-- A constant in-range field used to witness the export theorem. -/
noncomputable def f42 : ℤ → ℤ → Fin 3 → ℝ := fun _ _ _ => 42

/-- Witness for the export theorem at the concrete field value `42`. -/
theorem c8_export_cast_witness :
    (0 : ℝ) ≤ 42 ∧ (42 : ℝ) < 256 ∧
      (exportColorBuffer f42 0 0 0 = truncZ (f42 0 0 0) ∧
        0 ≤ exportColorBuffer f42 0 0 0 ∧ exportColorBuffer f42 0 0 0 < 256) :=
  ⟨by norm_num, by norm_num,
    c8_export_cast f42 0 0 0 (by norm_num [f42]) (by norm_num [f42])⟩

/-- A constant field whose value exceeds 255. -/
noncomputable def f300 : ℤ → ℤ → Fin 3 → ℝ := fun _ _ _ => 300

/-- C8 counterexample: the field value `300` exports as `44 = 300 % 256`,
not as the clamped value `255` the claim describes. -/
theorem c8_counterexample :
    exportColorBuffer f300 0 0 0 = 44 ∧ exportClampSpec (f300 0 0 0) = 255 ∧
      exportColorBuffer f300 0 0 0 ≠ exportClampSpec (f300 0 0 0) := by
  have ht : truncZ ((300 : ℝ)) = 300 := by
    rw [truncZ_of_nonneg (by norm_num)]
    norm_num
  refine ⟨?_, ?_, ?_⟩
  · unfold exportColorBuffer castUInt8 f300
    rw [ht]; norm_num
  · unfold exportClampSpec f300
    rw [ht]; norm_num
  · unfold exportColorBuffer castUInt8 exportClampSpec f300
    rw [ht]
    norm_num

/-!
## C3 — boundary containment
-/

lemma move_slimes_pos_in_bounds {cfg : SlimeConfig} (s : SlimeState cfg)
    (hW : 1 ≤ cfg.W) (hH : 1 ≤ cfg.H) (i : Fin cfg.n) :
    0 ≤ ((move_slimes s).pos i).1 ∧ ((move_slimes s).pos i).1 ≤ (cfg.W : ℝ) - 1 ∧
      0 ≤ ((move_slimes s).pos i).2 ∧ ((move_slimes s).pos i).2 ≤ (cfg.H : ℝ) - 1 := by
  unfold move_slimes
  split
  next _ =>
    exact ⟨(clipX_mem hW _).1, (clipX_mem hW _).2, (clipY_mem hH _).1, (clipY_mem hH _).2⟩
  next h =>
    push_neg at h
    have hx := (h i).1
    have hy := (h i).2
    unfold outX at hx
    unfold outY at hy
    push_neg at hx hy
    exact ⟨hx.1, hx.2, hy.1, hy.2⟩

/-- C3: after a full `tick`, every agent's position lies in
`[0, W-1] × [0, H-1]` (for any state, so in particular for every
reachable state; the later sub-steps of the tick do not move agents, and
`move_slimes` either clips every position or moved no agent out of
bounds). -/
theorem c3_tick_pos_in_bounds {cfg : SlimeConfig} (u : Fin cfg.n → ℝ)
    (s : SlimeState cfg) (hW : 1 ≤ cfg.W) (hH : 1 ≤ cfg.H) (i : Fin cfg.n) :
    0 ≤ ((tick u s).pos i).1 ∧ ((tick u s).pos i).1 ≤ (cfg.W : ℝ) - 1 ∧
      0 ≤ ((tick u s).pos i).2 ∧ ((tick u s).pos i).2 ≤ (cfg.H : ℝ) - 1 :=
  move_slimes_pos_in_bounds s hW hH i

/-- Witness for the containment theorem on a concrete single-agent
world. -/
theorem c3_tick_pos_in_bounds_witness :
    1 ≤ cfgZ.W ∧ 1 ≤ cfgZ.H ∧
      (0 ≤ ((tick uZ sZ).pos 0).1 ∧ ((tick uZ sZ).pos 0).1 ≤ (cfgZ.W : ℝ) - 1 ∧
        0 ≤ ((tick uZ sZ).pos 0).2 ∧ ((tick uZ sZ).pos 0).2 ≤ (cfgZ.H : ℝ) - 1) :=
  ⟨by norm_num, by norm_num, c3_tick_pos_in_bounds uZ sZ (by norm_num) (by norm_num) 0⟩

/-!
## C10 — frame effect of move_slimes on headings
-/

/-- `arctan2 (sin θ) (cos θ)` is the principal representative of `θ`:
it lies in `(-π, π]` and has the same sine and cosine as `θ`. -/
lemma atan2_sin_cos (θ : ℝ) :
    atan2 (Real.sin θ) (Real.cos θ) ∈ Set.Ioc (-π) π ∧
      Real.cos (atan2 (Real.sin θ) (Real.cos θ)) = Real.cos θ ∧
      Real.sin (atan2 (Real.sin θ) (Real.cos θ)) = Real.sin θ := by
  unfold atan2
  have habs : Complex.abs ((Real.cos θ : ℂ) + (Real.sin θ : ℂ) * Complex.I) = 1 := by
    rw [Complex.abs_apply, Complex.normSq_add_mul_I]
    rw [Real.cos_sq_add_sin_sq, Real.sqrt_one]
  have hne : ((Real.cos θ : ℂ) + (Real.sin θ : ℂ) * Complex.I) ≠ 0 := by
    intro h0
    rw [h0] at habs
    simp at habs
  refine ⟨Complex.arg_mem_Ioc _, ?_, ?_⟩
  · rw [Complex.cos_arg hne, habs]
    simp only [Complex.add_re, Complex.ofReal_re, Complex.mul_re, Complex.I_re,
      Complex.I_im, Complex.ofReal_im, div_one]
    ring
  · rw [Complex.sin_arg, habs]
    simp only [Complex.add_im, Complex.ofReal_im, Complex.mul_im, Complex.I_re,
      Complex.I_im, Complex.ofReal_re, div_one]
    ring

/-- C10: if no agent's pre-clip moved position is out of bounds,
`move_slimes` leaves every heading unchanged; if at least one agent is
out of bounds, every agent's heading is reassigned to
`arctan2` of its (sign-flipped where out of bounds) direction vector, so
each in-bounds agent's stored heading becomes the principal value in
`(-π, π]` of its old heading — the represented direction (sine and
cosine) is preserved. -/
theorem c10_move_heading_frame {cfg : SlimeConfig} (s : SlimeState cfg) :
    ((∀ i, ¬ outX cfg s i ∧ ¬ outY cfg s i) → (move_slimes s).angle = s.angle) ∧
    ((∃ i, outX cfg s i ∨ outY cfg s i) → ∀ j,
      (move_slimes s).angle j = atan2 (bouncedDir s j).1 (bouncedDir s j).2) ∧
    ((∃ i, outX cfg s i ∨ outY cfg s i) → ∀ j, ¬ outX cfg s j → ¬ outY cfg s j →
      (move_slimes s).angle j ∈ Set.Ioc (-π) π ∧
        Real.cos ((move_slimes s).angle j) = Real.cos (s.angle j) ∧
        Real.sin ((move_slimes s).angle j) = Real.sin (s.angle j)) := by
  refine ⟨?_, ?_, ?_⟩
  · intro h
    unfold move_slimes
    rw [dif_neg]
    rintro ⟨i, hi | hi⟩
    · exact (h i).1 hi
    · exact (h i).2 hi
  · intro h j
    unfold move_slimes
    rw [dif_pos h]
  · intro h j hx hy
    unfold move_slimes
    rw [dif_pos h]
    have hb : bouncedDir s j = (Real.sin (s.angle j), Real.cos (s.angle j)) := by
      unfold bouncedDir moveDir
      rw [if_neg hx, if_neg hy]
    show atan2 (bouncedDir s j).1 (bouncedDir s j).2 ∈ Set.Ioc (-π) π ∧
      Real.cos (atan2 (bouncedDir s j).1 (bouncedDir s j).2) = Real.cos (s.angle j) ∧
      Real.sin (atan2 (bouncedDir s j).1 (bouncedDir s j).2) = Real.sin (s.angle j)
    rw [hb]
    exact atan2_sin_cos (s.angle j)

/-- A two-agent world in which agent 0 bounces off the far y-wall while
agent 1 stays in bounds (both headed at angle 0, i.e. toward +y). -/
noncomputable def sM : SlimeState cfg2 :=
  { pos := fun i => if (i : ℕ) = 0 then (5, 1399) else (3, 10)
    angle := fun _ => 0
    color := fun _ _ => 0
    cells := fun _ _ _ => 0 }

/-- Witness for the frame-effect theorem: in `sM` some agent is out of
bounds, agent 1 is in bounds, and its reassigned heading is the
principal value of its old heading. -/
theorem c10_move_heading_frame_witness :
    (∃ i, outX cfg2 sM i ∨ outY cfg2 sM i) ∧
      (¬ outX cfg2 sM 1 ∧ ¬ outY cfg2 sM 1) ∧
      ((move_slimes sM).angle 1 ∈ Set.Ioc (-π) π ∧
        Real.cos ((move_slimes sM).angle 1) = Real.cos (sM.angle 1) ∧
        Real.sin ((move_slimes sM).angle 1) = Real.sin (sM.angle 1)) := by
  have hoob : outY cfg2 sM 0 := by
    unfold outY movedPos moveDir sM
    norm_num
  have hx1 : ¬ outX cfg2 sM 1 := by
    unfold outX movedPos moveDir sM
    norm_num
  have hy1 : ¬ outY cfg2 sM 1 := by
    unfold outY movedPos moveDir sM
    norm_num
  exact ⟨⟨0, Or.inr hoob⟩, ⟨hx1, hy1⟩,
    (c10_move_heading_frame sM).2.2 ⟨0, Or.inr hoob⟩ 1 hx1 hy1⟩

/-!
## C1 — heading update in sense_and_turn
-/

/-- C1 (amended): the code subtracts the turn angle when the *straight*
direction (index 1) wins, adds it when the right direction (index 2)
wins, and applies no deterministic change when the left direction
(index 0) wins; the uniform jitter `u*2*t - t ∈ [-t, t)` is added to
every agent's heading regardless of the winner. -/
theorem c1_heading_update {cfg : SlimeConfig} (u : Fin cfg.n → ℝ)
    (s : SlimeState cfg) (i : Fin cfg.n) (h0 : 0 ≤ u i) (h1 : u i < 1) :
    ((sensorsArgmax s i = 0 →
        (sense_and_turn u s).angle i =
          s.angle i + (u i * 2 * turn_angle_random - turn_angle_random)) ∧
      (sensorsArgmax s i = 1 →
        (sense_and_turn u s).angle i =
          s.angle i - turn_angle + (u i * 2 * turn_angle_random - turn_angle_random)) ∧
      (sensorsArgmax s i = 2 →
        (sense_and_turn u s).angle i =
          s.angle i + turn_angle + (u i * 2 * turn_angle_random - turn_angle_random))) ∧
    (-turn_angle_random ≤ u i * 2 * turn_angle_random - turn_angle_random ∧
      u i * 2 * turn_angle_random - turn_angle_random < turn_angle_random) := by
  have ht := turn_angle_random_pos
  refine ⟨⟨?_, ?_, ?_⟩, ?_, ?_⟩
  · intro h
    rw [sense_and_turn_angle, h, if_neg (by decide), if_neg (by decide)]
    ring
  · intro h
    rw [sense_and_turn_angle, h, if_pos rfl]
    ring
  · intro h
    rw [sense_and_turn_angle, h, if_neg (by decide), if_pos rfl]
  · nlinarith
  · nlinarith

/-- Witness for the heading-update theorem, on the all-zero world with
the jitter stream fixed at `1/2`. -/
theorem c1_heading_update_witness :
    0 ≤ uZ 0 ∧ uZ 0 < 1 ∧
      (((sensorsArgmax sZ 0 = 0 →
          (sense_and_turn uZ sZ).angle 0 =
            sZ.angle 0 + (uZ 0 * 2 * turn_angle_random - turn_angle_random)) ∧
        (sensorsArgmax sZ 0 = 1 →
          (sense_and_turn uZ sZ).angle 0 =
            sZ.angle 0 - turn_angle + (uZ 0 * 2 * turn_angle_random - turn_angle_random)) ∧
        (sensorsArgmax sZ 0 = 2 →
          (sense_and_turn uZ sZ).angle 0 =
            sZ.angle 0 + turn_angle + (uZ 0 * 2 * turn_angle_random - turn_angle_random))) ∧
      (-turn_angle_random ≤ uZ 0 * 2 * turn_angle_random - turn_angle_random ∧
        uZ 0 * 2 * turn_angle_random - turn_angle_random < turn_angle_random)) :=
  ⟨by norm_num [uZ], by norm_num [uZ],
    c1_heading_update uZ sZ 0 (by norm_num [uZ]) (by norm_num [uZ])⟩

/-- The color vector `[117, 255, 255]` of the source (`slime_color`). -/
noncomputable def colorA : Fin 3 → ℝ := fun c => if c = 0 then 117 else 255

/-- A one-agent world built to make the *left* sensing direction win
strictly: the agent sits in the corner at `(0, 0)` heading `π` (toward
-y); the field matches the agent's color exactly on the column `x = 3`
(which contains the left sample cell `(3, 0)`) and is zero elsewhere
(the straight and right samples both clip to cell `(0, 0)`). -/
noncomputable def w1 : SlimeState cfgZ :=
  { pos := fun _ => (0, 0)
    angle := fun _ => π
    color := fun _ => colorA
    cells := fun x _ c => if x = 3 then colorA c else 0 }

lemma w1_cfg_sub : (cfgZ.W : ℝ) - 1 = 1399 ∧ (cfgZ.H : ℝ) - 1 = 1399 := by
  norm_num

lemma w1_score_left : sense_at_angle w1 (sense_angles 0) 0 = 0 := by
  have hang : w1.angle 0 + sense_angles 0 = π - π / 6 := by
    show π + (if (0 : Fin 3) = 0 then deg2rad (-30) else _) = π - π / 6
    rw [if_pos rfl]
    unfold deg2rad
    ring
  have hsin : Real.sin (w1.angle 0 + sense_angles 0) = 1 / 2 := by
    rw [hang, Real.sin_pi_sub, Real.sin_pi_div_six]
  have hcos : Real.cos (w1.angle 0 + sense_angles 0) = -(Real.sqrt 3 / 2) := by
    rw [hang, Real.cos_pi_sub, Real.cos_pi_div_six]
  have hx : sensePosX w1 (sense_angles 0) 0 = 7 / 2 := by
    unfold sensePosX
    rw [hsin]
    show clipX cfgZ (0 + 1 / 2 * sense_dist) = 7 / 2
    unfold clipX sense_dist
    norm_num
  have hy : sensePosY w1 (sense_angles 0) 0 = 0 := by
    unfold sensePosY
    rw [hcos]
    show clipY cfgZ (0 + -(Real.sqrt 3 / 2) * sense_dist) = 0
    unfold clipY sense_dist
    have h3 : (0 : ℝ) ≤ Real.sqrt 3 := Real.sqrt_nonneg 3
    rw [max_eq_right (by nlinarith), min_eq_left (by norm_num)]
  have hcell : senseCell w1 (sense_angles 0) 0 = (3, 0) := by
    unfold senseCell
    rw [hx, hy]
    rw [truncZ_of_nonneg (by norm_num), truncZ_of_nonneg le_rfl]
    norm_num
  unfold sense_at_angle
  rw [hcell]
  show -(∑ c : Fin 3, |w1.cells 3 0 c - w1.color 0 c|) = 0
  have hc : ∀ c : Fin 3, w1.cells 3 0 c = w1.color 0 c := by
    intro c
    show (if (3 : ℤ) = 3 then colorA c else 0) = colorA c
    rw [if_pos rfl]
  simp [hc]

lemma w1_score_straight : sense_at_angle w1 (sense_angles 1) 0 = -627 := by
  have hang : w1.angle 0 + sense_angles 1 = π := by
    show π + sense_angles 1 = π
    rw [sense_angles_1, add_zero]
  have hx : sensePosX w1 (sense_angles 1) 0 = 0 := by
    unfold sensePosX
    rw [hang, Real.sin_pi]
    show clipX cfgZ (0 + 0 * sense_dist) = 0
    unfold clipX
    norm_num
  have hy : sensePosY w1 (sense_angles 1) 0 = 0 := by
    unfold sensePosY
    rw [hang, Real.cos_pi]
    show clipY cfgZ (0 + -1 * sense_dist) = 0
    unfold clipY sense_dist
    norm_num
  have hcell : senseCell w1 (sense_angles 1) 0 = (0, 0) := by
    unfold senseCell
    rw [hx, hy, truncZ_of_nonneg le_rfl]
    norm_num
  unfold sense_at_angle
  rw [hcell]
  show -(∑ c : Fin 3, |w1.cells 0 0 c - w1.color 0 c|) = -627
  have hc : ∀ c : Fin 3, w1.cells 0 0 c = 0 := by
    intro c
    show (if (0 : ℤ) = 3 then colorA c else 0) = 0
    norm_num
  rw [Fin.sum_univ_three]
  rw [hc 0, hc 1, hc 2]
  show -(|0 - colorA 0| + |0 - colorA 1| + |0 - colorA 2|) = -627
  unfold colorA
  rw [if_pos rfl, if_neg (by decide), if_neg (by decide),
    abs_zero_sub_of_nonneg (by norm_num : (0:ℝ) ≤ 117),
    abs_zero_sub_of_nonneg (by norm_num : (0:ℝ) ≤ 255)]
  norm_num

lemma w1_score_right : sense_at_angle w1 (sense_angles 2) 0 = -627 := by
  have hang : w1.angle 0 + sense_angles 2 = π + π / 6 := by
    show π + sense_angles 2 = π + π / 6
    rw [sense_angles_2]
    unfold deg2rad
    ring
  have hsin : Real.sin (w1.angle 0 + sense_angles 2) = -(1 / 2) := by
    rw [hang, Real.sin_add, Real.sin_pi, Real.cos_pi, Real.sin_pi_div_six]
    ring
  have hcos : Real.cos (w1.angle 0 + sense_angles 2) = -(Real.sqrt 3 / 2) := by
    rw [hang, Real.cos_add, Real.sin_pi, Real.cos_pi, Real.cos_pi_div_six]
    ring
  have hx : sensePosX w1 (sense_angles 2) 0 = 0 := by
    unfold sensePosX
    rw [hsin]
    show clipX cfgZ (0 + -(1 / 2) * sense_dist) = 0
    unfold clipX sense_dist
    norm_num
  have hy : sensePosY w1 (sense_angles 2) 0 = 0 := by
    unfold sensePosY
    rw [hcos]
    show clipY cfgZ (0 + -(Real.sqrt 3 / 2) * sense_dist) = 0
    unfold clipY sense_dist
    have h3 : (0 : ℝ) ≤ Real.sqrt 3 := Real.sqrt_nonneg 3
    rw [max_eq_right (by nlinarith), min_eq_left (by norm_num)]
  have hcell : senseCell w1 (sense_angles 2) 0 = (0, 0) := by
    unfold senseCell
    rw [hx, hy, truncZ_of_nonneg le_rfl]
    norm_num
  unfold sense_at_angle
  rw [hcell]
  show -(∑ c : Fin 3, |w1.cells 0 0 c - w1.color 0 c|) = -627
  have hc : ∀ c : Fin 3, w1.cells 0 0 c = 0 := by
    intro c
    show (if (0 : ℤ) = 3 then colorA c else 0) = 0
    norm_num
  rw [Fin.sum_univ_three]
  rw [hc 0, hc 1, hc 2]
  show -(|0 - colorA 0| + |0 - colorA 1| + |0 - colorA 2|) = -627
  unfold colorA
  rw [if_pos rfl, if_neg (by decide), if_neg (by decide),
    abs_zero_sub_of_nonneg (by norm_num : (0:ℝ) ≤ 117),
    abs_zero_sub_of_nonneg (by norm_num : (0:ℝ) ≤ 255)]
  norm_num

lemma w1_argmax : sensorsArgmax w1 0 = 0 := by
  unfold sensorsArgmax
  rw [w1_score_left, w1_score_straight, w1_score_right]
  unfold argmax3
  rw [if_pos (by norm_num)]

/-- C1 counterexample: in `w1` the left direction wins strictly, yet the
heading is *not* decreased by the turn angle — with the jitter fixed to
`0` (stream value `1/2`) the heading stays exactly `π`, while the claim
predicts `π - turn_angle ≠ π`. -/
theorem c1_counterexample :
    sensorsArgmax w1 0 = 0 ∧
      (sense_and_turn uZ w1).angle 0 = π ∧
      (sense_and_turn uZ w1).angle 0 ≠ π - turn_angle := by
  have hupd : (sense_and_turn uZ w1).angle 0 = π := by
    rw [sense_and_turn_angle, w1_argmax, if_neg (by decide), if_neg (by decide)]
    show π + 0 + (1 / 2 * 2 * turn_angle_random - turn_angle_random) = π
    ring
  refine ⟨w1_argmax, hupd, ?_⟩
  rw [hupd]
  have := turn_angle_pos
  intro h
  linarith

/-!
## C2 — tie-breaking of the winning direction
-/

/-- C2 (amended): the winner is the first maximal index in evaluation
order (left, straight, right) — so a tie between left and straight is
won by *left*, not straight; and when all three scores are equal the
winner is left, whose win carries no deterministic turn, so the heading
changes only by the jitter term. -/
theorem c2_first_max :
    (∀ a b c : ℝ,
      (b ≤ a → c ≤ a → argmax3 a b c = 0) ∧
      (a < b → c ≤ b → argmax3 a b c = 1) ∧
      (a < c → b < c → argmax3 a b c = 2)) ∧
    (∀ (cfg : SlimeConfig) (u : Fin cfg.n → ℝ) (s : SlimeState cfg) (i : Fin cfg.n),
      sense_at_angle s (sense_angles 0) i = sense_at_angle s (sense_angles 1) i →
      sense_at_angle s (sense_angles 1) i = sense_at_angle s (sense_angles 2) i →
      (sense_and_turn u s).angle i =
        s.angle i + (u i * 2 * turn_angle_random - turn_angle_random)) := by
  constructor
  · intro a b c
    refine ⟨?_, ?_, ?_⟩
    · intro hb hc
      unfold argmax3
      rw [if_pos ⟨hb, hc⟩]
    · intro hab hcb
      unfold argmax3
      rw [if_neg (fun hh => absurd hab (not_lt.mpr hh.1)), if_pos ⟨hab, hcb⟩]
    · intro hac hbc
      unfold argmax3
      rw [if_neg (fun hh => absurd hac (not_lt.mpr hh.2)),
        if_neg (fun hh => absurd hbc (not_lt.mpr hh.2))]
  · intro cfg u s i h01 h12
    have ham : sensorsArgmax s i = 0 := by
      unfold sensorsArgmax
      rw [h01, h12]
      unfold argmax3
      rw [if_pos ⟨le_refl _, le_refl _⟩]
    rw [sense_and_turn_angle, ham, if_neg (by decide), if_neg (by decide)]
    ring

lemma sZ_score (a : ℝ) : sense_at_angle sZ a 0 = 0 := by
  unfold sense_at_angle
  have hc : ∀ p q : ℤ, ∀ c : Fin 3, sZ.cells p q c - sZ.color 0 c = 0 := by
    intro p q c
    show (0 : ℝ) - 0 = 0
    norm_num
  simp [hc]

/-- Witness for the tie-break theorem: the characterization applied at
concrete scores, and the all-tie consequence on the all-zero world. -/
theorem c2_first_max_witness :
    argmax3 5 3 3 = 0 ∧ argmax3 3 5 3 = 1 ∧ argmax3 3 3 5 = 2 ∧
      (sense_and_turn uZ sZ).angle 0 =
        sZ.angle 0 + (uZ 0 * 2 * turn_angle_random - turn_angle_random) :=
  ⟨(c2_first_max.1 5 3 3).1 (by norm_num) (by norm_num),
    (c2_first_max.1 3 5 3).2.1 (by norm_num) (by norm_num),
    (c2_first_max.1 3 3 5).2.2 (by norm_num) (by norm_num),
    c2_first_max.2 cfgZ uZ sZ 0 (by rw [sZ_score, sZ_score]) (by rw [sZ_score, sZ_score])⟩

/-- C2 counterexample: on the all-zero field every sensing direction
scores the same, and the winning index is `0` (left), not `1`
(straight) as the claim's tie-break asserts. -/
theorem c2_counterexample :
    sense_at_angle sZ (sense_angles 0) 0 = sense_at_angle sZ (sense_angles 1) 0 ∧
      sense_at_angle sZ (sense_angles 1) 0 = sense_at_angle sZ (sense_angles 2) 0 ∧
      sensorsArgmax sZ 0 = 0 ∧ sensorsArgmax sZ 0 ≠ 1 := by
  have ham : sensorsArgmax sZ 0 = 0 := by
    unfold sensorsArgmax
    rw [sZ_score, sZ_score, sZ_score]
    unfold argmax3
    rw [if_pos ⟨le_refl _, le_refl _⟩]
  refine ⟨by rw [sZ_score, sZ_score], by rw [sZ_score, sZ_score], ham, ?_⟩
  rw [ham]
  decide

/-!
## C6 — deposit semantics of leave_slime_trail
-/

lemma depositUpTo_no_hit {cfg : SlimeConfig} (s : SlimeState cfg) (p : ℤ × ℤ)
    (c : Fin 3) :
    ∀ m : ℕ, (∀ i : Fin cfg.n, (i : ℕ) < m → intPos s i ≠ p) →
      depositUpTo s m p.1 p.2 c = s.cells p.1 p.2 c := by
  intro m
  induction m with
  | zero => intro _; rfl
  | succ m ih =>
    intro h
    unfold depositUpTo
    split
    next hm =>
      unfold writeCell
      rw [if_neg, ih (fun i hi => h i (Nat.lt_succ_of_lt hi))]
      rintro ⟨hx, hy⟩
      exact h ⟨m, hm⟩ (Nat.lt_succ_self m) (Prod.ext_iff.mpr ⟨hx.symm, hy.symm⟩)
    next => exact ih (fun i hi => h i (Nat.lt_succ_of_lt hi))

lemma depositUpTo_last_hit {cfg : SlimeConfig} (s : SlimeState cfg) (p : ℤ × ℤ)
    (c : Fin 3) (k : Fin cfg.n) (hk : intPos s k = p) :
    ∀ m : ℕ, (k : ℕ) < m →
      (∀ j : Fin cfg.n, k < j → intPos s j ≠ p) →
      depositUpTo s m p.1 p.2 c = s.color k c := by
  intro m
  induction m with
  | zero => intro h; exact absurd h (Nat.not_lt_zero _)
  | succ m ih =>
    intro hkm hj
    unfold depositUpTo
    split
    next hm =>
      by_cases hkm2 : (k : ℕ) = m
      · have hkeq : (⟨m, hm⟩ : Fin cfg.n) = k := Fin.ext hkm2.symm
        rw [hkeq]
        unfold writeCell
        rw [hk, if_pos ⟨rfl, rfl⟩]
      · have hlt : (k : ℕ) < m := by omega
        unfold writeCell
        rw [if_neg, ih hlt hj]
        rintro ⟨hx, hy⟩
        exact hj ⟨m, hm⟩ (by rw [Fin.lt_def]; exact lt_of_le_of_ne (Nat.le_of_lt_succ hkm) hkm2)
          (Prod.ext_iff.mpr ⟨hx.symm, hy.symm⟩)
    next hm =>
      have hlt : (k : ℕ) < m := lt_of_lt_of_le k.isLt (Nat.le_of_not_lt hm)
      exact ih hlt hj

/-- C6: `leave_slime_trail` overwrites the cell at each agent's integer
position with that agent's color; a cell containing no agent is left
unchanged, and a cell containing several agents ends up with the color
of the last one in the fixed iteration order (the greatest agent
index). -/
theorem c6_deposit_last_write {cfg : SlimeConfig} (s : SlimeState cfg)
    (x y : ℤ) (c : Fin 3) :
    ((∀ i : Fin cfg.n, intPos s i ≠ (x, y)) →
      (leave_slime_trail s).cells x y c = s.cells x y c) ∧
    (∀ k : Fin cfg.n, intPos s k = (x, y) →
      (∀ j : Fin cfg.n, k < j → intPos s j ≠ (x, y)) →
      (leave_slime_trail s).cells x y c = s.color k c) := by
  constructor
  · intro h
    exact depositUpTo_no_hit s (x, y) c cfg.n (fun i _ => h i)
  · intro k hk hj
    exact depositUpTo_last_hit s (x, y) c k hk cfg.n k.isLt hj

/-- A two-agent world with both agents on the cell `(5, 5)`; the agents
have different colors. -/
noncomputable def s6 : SlimeState cfg2 :=
  { pos := fun _ => (11 / 2, 11 / 2)
    angle := fun _ => 0
    color := fun i _ => if (i : ℕ) = 0 then 10 else 20
    cells := fun _ _ _ => 0 }

/-- Witness for the deposit theorem: both agents of `s6` occupy cell
`(5, 5)` and the cell receives the color of agent 1, the later writer. -/
theorem c6_deposit_last_write_witness :
    intPos s6 1 = (5, 5) ∧ (leave_slime_trail s6).cells 5 5 0 = s6.color 1 0 ∧
      s6.color 1 0 = 20 := by
  have hp : intPos s6 1 = (5, 5) := by
    unfold intPos
    show (truncZ (11 / 2), truncZ (11 / 2)) = (5, 5)
    rw [truncZ_of_nonneg (by norm_num)]
    norm_num
  refine ⟨hp, ?_, ?_⟩
  · refine (c6_deposit_last_write s6 5 5 0).2 1 hp ?_
    intro j hj
    rw [Fin.lt_def] at hj
    exact absurd (lt_of_lt_of_le hj (Nat.le_of_lt_succ j.isLt)) (lt_irrefl _)
  · show (if (1 : ℕ) = 0 then (10 : ℝ) else 20) = 20
    norm_num

/-!
## C7 — sensing-cell rounding rule
-/

/-- C7 (amended): the sampled sensing cell is obtained by clipping the
sensing position into bounds per axis and then *truncating toward zero*
(which on the clipped, nonnegative coordinates is the floor), not by
rounding to nearest. -/
theorem c7_sense_cell_trunc {cfg : SlimeConfig} (s : SlimeState cfg) (a : ℝ)
    (i : Fin cfg.n) (hW : 1 ≤ cfg.W) (hH : 1 ≤ cfg.H) :
    senseCell s a i = (⌊sensePosX s a i⌋, ⌊sensePosY s a i⌋) ∧
      0 ≤ sensePosX s a i ∧ 0 ≤ sensePosY s a i := by
  have hx : 0 ≤ sensePosX s a i := (clipX_mem hW _).1
  have hy : 0 ≤ sensePosY s a i := (clipY_mem hH _).1
  refine ⟨?_, hx, hy⟩
  unfold senseCell
  rw [truncZ_of_nonneg hx, truncZ_of_nonneg hy]

/-- Witness for the truncation theorem on the all-zero world. -/
theorem c7_sense_cell_trunc_witness :
    1 ≤ cfgZ.W ∧ 1 ≤ cfgZ.H ∧
      (senseCell sZ 0 0 = (⌊sensePosX sZ 0 0⌋, ⌊sensePosY sZ 0 0⌋) ∧
        0 ≤ sensePosX sZ 0 0 ∧ 0 ≤ sensePosY sZ 0 0) :=
  ⟨by norm_num, by norm_num, c7_sense_cell_trunc sZ 0 0 (by norm_num) (by norm_num)⟩

/-- A one-agent world at position `(0.6, 0.3)` heading `0`: the straight
sensing position is `(0.6, 7.3)`, whose truncation `(0, 7)` differs from
its rounding `(1, 7)`. -/
noncomputable def w7 : SlimeState cfgZ :=
  { pos := fun _ => (3 / 5, 3 / 10)
    angle := fun _ => 0
    color := fun _ _ => 0
    cells := fun _ _ _ => 0 }

lemma w7_sense_pos : sensePosX w7 (sense_angles 1) 0 = 3 / 5 ∧
    sensePosY w7 (sense_angles 1) 0 = 73 / 10 := by
  have hang : w7.angle 0 + sense_angles 1 = 0 := by
    show 0 + sense_angles 1 = 0
    rw [sense_angles_1, add_zero]
  constructor
  · unfold sensePosX
    rw [hang, Real.sin_zero]
    show clipX cfgZ (3 / 5 + 0 * sense_dist) = 3 / 5
    unfold clipX
    norm_num
  · unfold sensePosY
    rw [hang, Real.cos_zero]
    show clipY cfgZ (3 / 10 + 1 * sense_dist) = 73 / 10
    unfold clipY sense_dist
    norm_num

/-- C7 counterexample: for the straight sensing direction in `w7` the
source samples cell `(0, 7)` (truncation), while the claim's
round-to-nearest rule would sample `(1, 7)`. -/
theorem c7_counterexample :
    senseCell w7 (sense_angles 1) 0 = (0, 7) ∧
      senseCellRounded w7 (sense_angles 1) 0 = (1, 7) ∧
      senseCell w7 (sense_angles 1) 0 ≠ senseCellRounded w7 (sense_angles 1) 0 := by
  obtain ⟨hx, hy⟩ := w7_sense_pos
  have h1 : senseCell w7 (sense_angles 1) 0 = (0, 7) := by
    unfold senseCell
    rw [hx, hy, truncZ_of_nonneg (by norm_num), truncZ_of_nonneg (by norm_num)]
    have hfx : ⌊(3 / 5 : ℝ)⌋ = 0 := by
      norm_num
    have hfy : ⌊(73 / 10 : ℝ)⌋ = 7 := by
      norm_num
    rw [hfx, hfy]
  have h2 : senseCellRounded w7 (sense_angles 1) 0 = (1, 7) := by
    unfold senseCellRounded
    rw [hx, hy]
    have hrx : round ((3 / 5 : ℝ)) = 1 := by
      rw [round_eq]
      norm_num
    have hry : round ((73 / 10 : ℝ)) = 7 := by
      rw [round_eq]
      norm_num
    rw [hrx, hry]
  refine ⟨h1, h2, ?_⟩
  rw [h1, h2]
  intro h
  exact absurd (Prod.ext_iff.mp h).1 (by norm_num)

/-!
## C5 — field decay vs. diffusion
-/

lemma gauss_integrable :
    MeasureTheory.Integrable (fun x : ℝ => Real.exp (-x ^ 2 / 2)) := by
  have h : (fun x : ℝ => Real.exp (-x ^ 2 / 2)) =
      fun x : ℝ => Real.exp (-(1 / 2) * x ^ 2) := by
    funext x
    congr 1
    ring
  rw [h]
  exact integrable_exp_neg_mul_sq (by norm_num)

lemma normCdf_lt_normCdf {a b : ℝ} (hab : a < b) : normCdf a < normCdf b := by
  have hi := gauss_integrable
  have hdiff : ((∫ x in Set.Iic b, Real.exp (-x ^ 2 / 2)) -
      ∫ x in Set.Iic a, Real.exp (-x ^ 2 / 2)) =
      ∫ x in a..b, Real.exp (-x ^ 2 / 2) :=
    intervalIntegral.integral_Iic_sub_Iic hi.integrableOn hi.integrableOn
  have hpos : 0 < ∫ x in a..b, Real.exp (-x ^ 2 / 2) :=
    intervalIntegral.intervalIntegral_pos_of_pos hi.intervalIntegrable
      (fun x => Real.exp_pos _) hab
  have hsq : 0 < Real.sqrt (2 * π) := Real.sqrt_pos.mpr (by positivity)
  unfold normCdf
  rw [div_lt_div_iff_of_pos_right hsq]
  linarith

lemma kern1d_pos (i : ℕ) : 0 < kern1d i := by
  unfold kern1d
  have hlt : linspacePt i < linspacePt (i + 1) := by
    unfold linspacePt
    push_cast
    nlinarith [sq_nonneg ((i : ℝ))]
  linarith [normCdf_lt_normCdf hlt]

/-- `kern1d.sum()`: the total mass of the unnormalized 1D profile. -/
noncomputable def kern1dSum : ℝ := ∑ i ∈ Finset.range 21, kern1d i

lemma kern1dSum_pos : 0 < kern1dSum :=
  Finset.sum_pos (fun i _ => kern1d_pos i) ⟨0, by decide⟩

lemma kern2dSum_eq : kern2dSum = kern1dSum * kern1dSum := by
  unfold kern2dSum kern1dSum
  rw [Finset.sum_mul_sum]

lemma kern2dSum_pos : 0 < kern2dSum := by
  rw [kern2dSum_eq]
  exact mul_pos kern1dSum_pos kern1dSum_pos

lemma kern1d_lt_sum : kern1d 10 < kern1dSum := by
  unfold kern1dSum
  have h10 : (10 : ℕ) ∈ Finset.range 21 := by decide
  rw [← Finset.sum_erase_add _ _ h10]
  have hpos : 0 < ∑ i ∈ (Finset.range 21).erase 10, kern1d i :=
    Finset.sum_pos (fun i _ => kern1d_pos i) ⟨0, by decide⟩
  linarith

lemma trailKernel_center_lt_one : trailKernel 10 10 < 1 := by
  unfold trailKernel
  rw [div_lt_one kern2dSum_pos, kern2dSum_eq]
  nlinarith [kern1d_lt_sum, kern1d_pos 10, kern1dSum_pos]

lemma trailKernel_sum :
    ∑ i ∈ Finset.range 21, ∑ j ∈ Finset.range 21, trailKernel i j = 1 := by
  unfold trailKernel
  simp only [← Finset.sum_div]
  rw [← kern2dSum]
  exact div_self (ne_of_gt kern2dSum_pos)

lemma diffuse_slime_trail_cells {cfg : SlimeConfig} (s : SlimeState cfg) :
    (diffuse_slime_trail s).cells =
      convolveCells cfg (fun x y c => trail_reduction_factor * s.cells x y c) := rfl

lemma convolve_const (cfg : SlimeConfig) (v : ℝ) :
    convolveCells cfg (fun _ _ _ => v) = fun _ _ _ => v := by
  funext x y c
  unfold convolveCells
  simp only [← Finset.sum_mul]
  rw [trailKernel_sum, one_mul]

/-- C5 (amended): the per-tick field update is decay (multiplication by
the reduction factor) followed by convolution with the normalized
kernel; on a spatially uniform field the convolution is the identity, so
with no deposits every cell's value after `k` ticks is its initial value
times `0.99 ^ k`. -/
theorem c5_uniform_decay {cfg : SlimeConfig} (s : SlimeState cfg) (v : ℝ)
    (k : ℕ) (x y : ℤ) (c : Fin 3) :
    (diffuseIter cfg k { s with cells := fun _ _ _ => v }).cells x y c =
      trail_reduction_factor ^ k * v := by
  have key : ∀ m : ℕ,
      (diffuseIter cfg m { s with cells := fun _ _ _ => v }).cells =
        fun _ _ _ => trail_reduction_factor ^ m * v := by
    intro m
    induction m with
    | zero =>
      show (fun (_ : ℤ) (_ : ℤ) (_ : Fin 3) => v) = _
      funext _ _ _
      rw [pow_zero, one_mul]
    | succ m ih =>
      show (diffuse_slime_trail _).cells = _
      rw [diffuse_slime_trail_cells]
      simp only [ih]
      have harg : (fun (_ : ℤ) (_ : ℤ) (_ : Fin 3) =>
          trail_reduction_factor * (trail_reduction_factor ^ m * v)) =
          fun (_ : ℤ) (_ : ℤ) (_ : Fin 3) => trail_reduction_factor ^ (m + 1) * v := by
        funext _ _ _
        ring
      rw [harg, convolve_const]
  rw [key k]

lemma reflectIdx_of_mem {m : ℕ} {z : ℤ} (h0 : 0 ≤ z) (hm : z < (m : ℤ)) :
    reflectIdx m z = z := by
  have h2m : z < 2 * (m : ℤ) := by linarith [lt_of_le_of_lt h0 hm]
  have hmod : z % (2 * (m : ℤ)) = z := Int.emod_eq_of_lt h0 h2m
  unfold reflectIdx
  rw [hmod, if_pos hm]

/-- A one-agent world whose field is zero except for the single cell
`(700, 700)`, which holds `255` on every channel. -/
noncomputable def sDelta : SlimeState cfgZ :=
  { pos := fun _ => (700, 700)
    angle := fun _ => 0
    color := fun _ _ => 0
    cells := fun x y _ => if x = 700 ∧ y = 700 then 255 else 0 }

/-- C5 counterexample: after one tick of the field update (no deposits)
the center cell of `sDelta` does *not* equal `0.99 ^ 1` times its
initial value — the convolution spreads its mass, leaving only the
kernel's center weight (< 1) of it in place. -/
theorem c5_counterexample :
    (diffuseIter cfgZ 1 sDelta).cells 700 700 0 ≠
      trail_reduction_factor ^ 1 * sDelta.cells 700 700 0 := by
  have hinit : sDelta.cells 700 700 0 = 255 := by
    show (if (700 : ℤ) = 700 ∧ (700 : ℤ) = 700 then (255 : ℝ) else 0) = 255
    rw [if_pos ⟨rfl, rfl⟩]
  have hrefl : ∀ i : ℕ, i ∈ Finset.range 21 →
      reflectIdx 1400 (700 + 10 - (i : ℤ)) = 710 - (i : ℤ) := by
    intro i hi
    have hi20 : (i : ℤ) ≤ 20 := by
      have := Finset.mem_range.mp hi
      omega
    have : (700 : ℤ) + 10 - (i : ℤ) = 710 - (i : ℤ) := by ring
    rw [this]
    exact reflectIdx_of_mem (by omega) (by push_cast; omega)
  have hlhs : (diffuseIter cfgZ 1 sDelta).cells 700 700 0 =
      trailKernel 10 10 * (trail_reduction_factor * 255) := by
    show (diffuse_slime_trail (diffuseIter cfgZ 0 sDelta)).cells 700 700 0 = _
    show convolveCells cfgZ
        (fun x y c => trail_reduction_factor * sDelta.cells x y c) 700 700 0 = _
    unfold convolveCells
    rw [Finset.sum_eq_single 10]
    · rw [Finset.sum_eq_single 10]
      · simp only [hrefl 10 (by decide)]
        norm_num [sDelta]
      · intro j hj hj10
        simp only [hrefl 10 (by decide), hrefl j hj]
        have hne : (710 : ℤ) - (j : ℤ) ≠ 700 := by omega
        norm_num [sDelta, hne]
      · intro h
        exact absurd (by decide : (10 : ℕ) ∈ Finset.range 21) h
    · intro i hi hi10
      apply Finset.sum_eq_zero
      intro j hj
      simp only [hrefl i hi]
      have hne : (710 : ℤ) - (i : ℤ) ≠ 700 := by omega
      norm_num [sDelta, hne]
    · intro h
      exact absurd (by decide : (10 : ℕ) ∈ Finset.range 21) h
  rw [hlhs, hinit, pow_one]
  intro h
  have hc : (trail_reduction_factor * 255 : ℝ) ≠ 0 := by
    unfold trail_reduction_factor
    norm_num
  have h1 : trailKernel 10 10 * (trail_reduction_factor * 255) =
      1 * (trail_reduction_factor * 255) := by
    rw [one_mul]
    exact h
  exact absurd (mul_right_cancel₀ hc h1) (ne_of_lt trailKernel_center_lt_one)

end SlimeSim
